import Mathlib

/-!
Verification of the merge-sort visualizer core (trace recorder and playback
controller), shallowly embedded from `src/mergesort.py`.

The recorder (`MergeSortVisualizer.merge_sort_with_steps` /
`merge_with_steps`) keeps a mutable working array `self.array` and an
accumulating step list `self.steps`; we model that object state as
`VizState` and thread it explicitly.  Python step dicts become the `Step`
type; dict keys that are absent for a given step kind are modelled as `[]`
(for the index lists) and `none` (for the `previous_step` key that the
display code attaches later).
-/

inductive StepKind where
  | split
  | merge
deriving DecidableEq, Repr

structure StepCore where
  kind : StepKind
  array : List Int
  left : List Nat
  right : List Nat
  comparing : List Nat
  level : Nat
  description : String
deriving DecidableEq, Repr

/-- A recorded step: its payload plus the `previous_step` entry that the
presentation code of `main` may attach to the dict afterwards. -/
inductive Step where
  | mk : StepCore → Option Step → Step
deriving Repr

def Step.core : Step → StepCore
  | .mk c _ => c

def Step.prevEntry : Step → Option Step
  | .mk _ p => p

/-- The mutable state of a `MergeSortVisualizer` object: the shared working
array `self.array` and the accumulated `self.steps`. -/
structure VizState where
  array : List Int
  steps : List Step
deriving Repr

/-- The main `while i < len(left) and j < len(right)` loop of
`merge_with_steps` (lines 121-140): consume both lists, writing the chosen
element into the working array and appending one merge step per write.
The Python loop variables `result` and `result_idx` are threaded through;
`comparing` is recorded as `[start_idx + len(result) - 1]` exactly as in
the source. -/
def mergeMainLoop (startIdx level : Nat) :
    List Int → List Int → List Int → Nat → VizState →
    List Int × List Int × List Int × Nat × VizState
  | x :: ls, y :: rs, result, resultIdx, s =>
    if x ≤ y then
      let result' := result ++ [x]
      let arr' := s.array.set resultIdx x
      let resultIdx' := resultIdx + 1
      let st : Step := .mk
        { kind := .merge, array := arr', left := [], right := [],
          comparing := [startIdx + result'.length - 1], level := level,
          description := "Merging: placed " ++ toString x ++
            " at position " ++ toString (resultIdx' - 1) } none
      mergeMainLoop startIdx level ls (y :: rs) result' resultIdx'
        { array := arr', steps := s.steps ++ [st] }
    else
      let result' := result ++ [y]
      let arr' := s.array.set resultIdx y
      let resultIdx' := resultIdx + 1
      let st : Step := .mk
        { kind := .merge, array := arr', left := [], right := [],
          comparing := [startIdx + result'.length - 1], level := level,
          description := "Merging: placed " ++ toString y ++
            " at position " ++ toString (resultIdx' - 1) } none
      mergeMainLoop startIdx level (x :: ls) rs result' resultIdx'
        { array := arr', steps := s.steps ++ [st] }
  | ls, rs, result, resultIdx, s => (ls, rs, result, resultIdx, s)
termination_by l r _ _ _ => l.length + r.length

/-- One of the two identical `while` drain loops of `merge_with_steps`
(lines 143-167): append the remaining elements of one side one at a time,
each producing its own merge step with `comparing = [result_idx]`. -/
def drainLoop (level : Nat) : List Int → List Int → Nat → VizState →
    List Int × Nat × VizState
  | x :: xs, result, resultIdx, s =>
    let arr' := s.array.set resultIdx x
    let st : Step := .mk
      { kind := .merge, array := arr', left := [], right := [],
        comparing := [resultIdx], level := level,
        description := "Adding remaining element " ++ toString x } none
    drainLoop level xs (result ++ [x]) (resultIdx + 1)
      { array := arr', steps := s.steps ++ [st] }
  | [], result, resultIdx, s => (result, resultIdx, s)

/-- Model of `MergeSortVisualizer.merge_with_steps` (lines 115-169): the main
two-sided loop followed by the two drain loops, starting from
`result = []` and `result_idx = start_idx`. -/
def merge_with_steps (left right : List Int) (startIdx level : Nat)
    (s : VizState) : List Int × VizState :=
  let out := mergeMainLoop startIdx level left right [] startIdx s
  let lrem := out.1
  let rrem := out.2.1
  let d1 := drainLoop level lrem out.2.2.1 out.2.2.2.1 out.2.2.2.2
  let d2 := drainLoop level rrem d1.1 d1.2.1 d1.2.2
  (d2.1, d2.2.2)

/-- Generalization of `merge_with_steps` over the loop accumulator, for
induction: the main loop from an arbitrary `result`/`result_idx`/state,
followed by the two drain loops. -/
def mergePipeline (startIdx level : Nat) (l r result : List Int)
    (resultIdx : Nat) (s : VizState) : List Int × VizState :=
  let out := mergeMainLoop startIdx level l r result resultIdx s
  let d1 := drainLoop level out.1 out.2.2.1 out.2.2.2.1 out.2.2.2.2
  let d2 := drainLoop level out.2.1 d1.1 d1.2.1 d1.2.2
  (d2.1, d2.2.2)

/-- Model of `MergeSortVisualizer.merge_sort_with_steps` (lines 87-113): length ≤ 1
returns the slice unchanged with no step; otherwise record a split step
(snapshot is the current working array, `left`/`right` are the two halves
of the current range in absolute coordinates), recurse left then right,
and merge. -/
def merge_sort_with_steps : List Int → Nat → Nat → VizState →
    List Int × VizState
  | arr, startIdx, level, s =>
    if arr.length ≤ 1 then (arr, s)
    else
      let mid := arr.length / 2
      let leftPart := arr.take mid
      let rightPart := arr.drop mid
      let st : Step := .mk
        { kind := .split, array := s.array,
          left := (List.range leftPart.length).map (fun i => startIdx + i),
          right := (List.range rightPart.length).map
            (fun i => startIdx + mid + i),
          comparing := [], level := level,
          description := "Splitting array at position " ++ toString mid }
        none
      let s1 : VizState := { array := s.array, steps := s.steps ++ [st] }
      let lout := merge_sort_with_steps leftPart startIdx (level + 1) s1
      let rout := merge_sort_with_steps rightPart (startIdx + mid)
        (level + 1) lout.2
      merge_with_steps lout.1 rout.1 startIdx level rout.2
termination_by arr _ _ _ => arr.length
decreasing_by
  all_goals simp_wf
  all_goals omega

/-- The run started by the `Start Merge Sort` handler (lines 390-398):
the `steps` list of the visualizer is reset to `[]`, `self.array` holds the input,
and `merge_sort_with_steps` is called on a copy of it with the default
`start_idx = 0`, `level = 0`.  Returns the final visualizer state. -/
def runRecorder (seq : List Int) : VizState :=
  (merge_sort_with_steps seq 0 0 { array := seq, steps := [] }).2

/-- The contract `record(sequence) -> Trace`: the step list produced for one run. -/
def record (seq : List Int) : List Step :=
  (runRecorder seq).steps

/-- A recorder run in an ambient environment (wall-clock time, RNG state
...), modelled as an unused seed: `merge_sort_with_steps` and
`merge_with_steps` reference no source of nondeterminism (the `random`
and `time` modules are used only outside the recorder), so the produced
trace depends on nothing but the input sequence. -/
def recordRun (_envSeed : Nat) (seq : List Int) : List Step :=
  record seq

/-! ## Playback controller

The playback state lives in `st.session_state` as `current_step` and
`is_playing`; each button handler of `main` is modelled as a function of
that state.  `len` is the length of the recorded trace. -/

structure PlaybackState where
  current_step : Nat
  is_playing : Bool
deriving DecidableEq, Repr

/-- The `<-Previous` button handler (lines 439-443): only when
`current_step > 0` does it decrement the cursor and stop playing. -/
def prevClick (p : PlaybackState) : PlaybackState :=
  if 0 < p.current_step then
    { current_step := p.current_step - 1, is_playing := false }
  else p

/-- The `Next->` button handler (lines 453-458): only when
`current_step < len - 1` does it increment the cursor and stop playing. -/
def nextClick (len : Nat) (p : PlaybackState) : PlaybackState :=
  if p.current_step < len - 1 then
    { current_step := p.current_step + 1, is_playing := false }
  else p

/-- The `Play` button handler (lines 445-447). -/
def playClick (p : PlaybackState) : PlaybackState :=
  { p with is_playing := true }

/-- The `Pause` button handler (lines 449-451). -/
def pauseClick (p : PlaybackState) : PlaybackState :=
  { p with is_playing := false }

/-- The step-navigation slider (lines 471-478): `st.slider` with bounds
`0` and `len - 1` returns a value inside those bounds, which is stored
into `current_step`; `is_playing` is untouched. -/
def seekSlider (len : Nat) (i : Nat) (p : PlaybackState) : PlaybackState :=
  { p with current_step := min i (len - 1) }

/-- One iteration of the auto-play `while` loop (lines 486-506): if
`is_playing` and `current_step < len`, the loop body displays the current
step, sleeps, then increments `current_step`; when the incremented cursor
reaches `len` it sets `is_playing = False` and breaks. -/
def tickAuto (len : Nat) (p : PlaybackState) : PlaybackState :=
  if p.is_playing ∧ p.current_step < len then
    let c := p.current_step + 1
    if len ≤ c then { current_step := c, is_playing := false }
    else { current_step := c, is_playing := p.is_playing }
  else p

/-- The `previous_step` attachment performed by the display code (lines
488-489 and 515-516): when `0 <= current_step < len(steps)` and
`current_step > 0`, the step dict stored in the trace at the cursor is
mutated in place, gaining a `previous_step` entry that references the
preceding step. -/
def attachPrev (steps : List Step) (cursor : Nat) : List Step :=
  if cursor < steps.length ∧ 0 < cursor then
    match steps.get? cursor, steps.get? (cursor - 1) with
    | some cur, some prv => steps.set cursor (Step.mk cur.core (some prv))
    | _, _ => steps
  else steps

/-! ## Reference (specification-side) definitions

`mergeKey`/`msortKey` are the standard top-down merge sort with
floor-halving split and the stable-left tie-break (`key a ≤ key b` takes
from the left), stated over an arbitrary key projection so that the same
definitions serve both the plain sort of values (`key = id`) and the
provenance-tagged reference stable sort of the spec (`key = Prod.fst`). -/

def mergeKey {α : Type} (key : α → Int) : List α → List α → List α
  | [], r => r
  | l, [] => l
  | x :: ls, y :: rs =>
    if key x ≤ key y then x :: mergeKey key ls (y :: rs)
    else y :: mergeKey key (x :: ls) rs
termination_by l r => l.length + r.length

def msortKey {α : Type} (key : α → Int) (l : List α) : List α :=
  if l.length ≤ 1 then l
  else
    mergeKey key (msortKey key (l.take (l.length / 2)))
      (msortKey key (l.drop (l.length / 2)))
termination_by l.length
decreasing_by
  all_goals simp_wf
  all_goals omega

/-- Tag every element with its original index (provenance), starting at
`n`: per the spec, duplicate values tagged with distinct provenance. -/
def tag : List Int → Nat → List (Int × Nat)
  | [], _ => []
  | x :: xs, n => (x, n) :: tag xs (n + 1)

/-- Strict lexicographic order on (value, provenance) pairs: the unique
ordering a stable sort of distinctly-tagged elements must produce. -/
def lexRel (a b : Int × Nat) : Prop :=
  a.1 < b.1 ∨ (a.1 = b.1 ∧ a.2 < b.2)

/-- Write the elements of `xs` into `a` at consecutive positions starting
at `i` — the cumulative effect of the single-element recorder writes. -/
def writeSeq : List Int → Nat → List Int → List Int
  | a, _, [] => a
  | a, i, x :: xs => writeSeq (a.set i x) (i + 1) xs

/-! ## Trace well-formedness invariants -/

/-- The snapshot shown after `steps`, starting from working array `init`:
the snapshot of the last step, or `init` if no step was recorded yet. -/
def snapAfter (init : List Int) (steps : List Step) : List Int :=
  match steps.getLast? with
  | some st => st.core.array
  | none => init

/-- What a single recorded step may do, relative to the working array
`prev` as it stood before the step: a split step changes no values and
carries the two half-ranges of some block in absolute coordinates; a
merge step writes exactly one in-bounds position, which is the one index
in its `comparing` list. -/
def stepOkFrom (prev : List Int) (st : Step) : Prop :=
  (st.core.kind = StepKind.split →
    st.core.array = prev ∧
    ∃ a n, 2 ≤ n ∧ a + n ≤ prev.length ∧
      st.core.left = (List.range (n / 2)).map (fun i => a + i) ∧
      st.core.right = (List.range (n - n / 2)).map (fun i => a + n / 2 + i)) ∧
  (st.core.kind = StepKind.merge →
    ∃ k v, st.core.comparing = [k] ∧ k < prev.length ∧
      st.core.array = prev.set k v)

/-- Each step in the list is valid relative to the snapshot left behind by
its predecessor (or `init` for the first step). -/
def stepsChain : List Int → List Step → Prop
  | _, [] => True
  | prev, st :: rest => stepOkFrom prev st ∧ stepsChain st.core.array rest

/-- Recorder-state invariant: the accumulated steps chain correctly from
`init`, the working array is the snapshot of the last step, and the
working array never changes length. -/
def stateInv (init : List Int) (s : VizState) : Prop :=
  stepsChain init s.steps ∧ snapAfter init s.steps = s.array ∧
    s.array.length = init.length

/-! ## Basic lemmas about `writeSeq` -/

theorem writeSeq_length : ∀ (xs a : List Int) (i : Nat),
    (writeSeq a i xs).length = a.length
  | [], _, _ => rfl
  | x :: xs, a, i => by
    rw [writeSeq, writeSeq_length xs]
    exact a.length_set i x

theorem writeSeq_getElem? : ∀ (xs a : List Int) (i m : Nat),
    i + xs.length ≤ a.length →
    (writeSeq a i xs)[m]? =
      if i ≤ m ∧ m < i + xs.length then xs[m - i]? else a[m]?
  | [], a, i, m => by
    intro _
    rw [writeSeq, if_neg (by simp only [List.length_nil]; omega)]
  | x :: xs, a, i, m => by
    intro h
    have hlen : i < a.length := by
      simp only [List.length_cons] at h; omega
    have h' : i + 1 + xs.length ≤ (a.set i x).length := by
      rw [List.length_set]; simp only [List.length_cons] at h; omega
    rw [writeSeq, writeSeq_getElem? xs (a.set i x) (i + 1) m h']
    rcases Nat.lt_trichotomy m i with hm | hm | hm
    · rw [if_neg (by omega), if_neg (by omega),
        List.getElem?_set_ne (by omega)]
    · subst hm
      rw [if_neg (by omega),
        if_pos (by simp only [List.length_cons]; omega),
        List.getElem?_set_self hlen]
      simp
    · by_cases hin : m < i + 1 + xs.length
      · rw [if_pos (by omega),
          if_pos (by simp only [List.length_cons]; omega)]
        have hmi : m - i = (m - (i + 1)) + 1 := by omega
        rw [hmi]
        simp
      · rw [if_neg (by omega),
          if_neg (by simp only [List.length_cons]; omega),
          List.getElem?_set_ne (by omega)]

theorem writeSeq_full (xs a : List Int) (h : xs.length = a.length) :
    writeSeq a 0 xs = xs := by
  apply List.ext_getElem?
  intro n
  rw [writeSeq_getElem? xs a 0 n (by omega)]
  by_cases hn : n < xs.length
  · rw [if_pos (by omega)]
    simp
  · rw [if_neg (by omega), List.getElem?_eq_none (by omega),
      List.getElem?_eq_none (by omega)]

theorem writeSeq_absorb (a : List Int) (i j : Nat) (xs ys : List Int)
    (hij : i ≤ j) (hj : j + xs.length ≤ i + ys.length)
    (hb : i + ys.length ≤ a.length) :
    writeSeq (writeSeq a j xs) i ys = writeSeq a i ys := by
  have hxb : j + xs.length ≤ a.length := by omega
  apply List.ext_getElem?
  intro n
  rw [writeSeq_getElem? ys _ i n (by rw [writeSeq_length]; omega),
    writeSeq_getElem? ys a i n hb]
  by_cases hn : i ≤ n ∧ n < i + ys.length
  · rw [if_pos hn, if_pos hn]
  · rw [if_neg hn, if_neg hn, writeSeq_getElem? xs a j n hxb,
      if_neg (by omega)]

theorem set_getElem?_self {α : Type} {a : List α} {i : Nat} {x : α}
    (h : a[i]? = some x) : a.set i x = a := by
  have hlt : i < a.length := by
    by_contra hc
    rw [List.getElem?_eq_none (by omega)] at h
    exact Option.noConfusion h
  apply List.ext_getElem?
  intro n
  by_cases hn : i = n
  · subst hn
    rw [List.getElem?_set_self hlt, h]
  · rw [List.getElem?_set_ne hn]

/-! ## Lemmas about snapshots and step chains -/

theorem snapAfter_cons (init : List Int) (hd : Step) (tl : List Step) :
    snapAfter init (hd :: tl) = snapAfter hd.core.array tl := by
  cases tl with
  | nil => simp [snapAfter]
  | cons t ts =>
    obtain ⟨st, hst⟩ : ∃ st, (t :: ts).getLast? = some st := by
      cases h : (t :: ts).getLast? with
      | none => simp at h
      | some st => exact ⟨st, rfl⟩
    simp [snapAfter, List.getLast?_cons_cons, hst]

theorem snapAfter_append_one (init : List Int) (steps : List Step)
    (st : Step) : snapAfter init (steps ++ [st]) = st.core.array := by
  simp [snapAfter, List.getLast?_concat]

theorem stepsChain_append_one : ∀ {steps : List Step} {init : List Int}
    {st : Step}, stepsChain init steps →
    stepOkFrom (snapAfter init steps) st →
    stepsChain init (steps ++ [st])
  | [], init, st, _, hst => ⟨hst, trivial⟩
  | hd :: tl, init, st, h, hst => by
    refine ⟨h.1, stepsChain_append_one h.2 ?_⟩
    rwa [snapAfter_cons] at hst

/-- Appending one merge step that records a single in-bounds write
preserves the recorder-state invariant. -/
theorem stateInv_push_merge {s : VizState} {init : List Int} {k : Nat}
    {v : Int} {c : StepCore} (hk : c.kind = StepKind.merge)
    (hcomp : c.comparing = [k]) (harr : c.array = s.array.set k v)
    (hkb : k < s.array.length) (hinv : stateInv init s) :
    stateInv init
      { array := s.array.set k v, steps := s.steps ++ [Step.mk c none] } := by
  refine ⟨stepsChain_append_one hinv.1 ?_, ?_, ?_⟩
  · rw [hinv.2.1]
    refine ⟨fun hsp => ?_, fun _ => ⟨k, v, ?_, hkb, ?_⟩⟩
    · simp only [Step.core] at hsp
      rw [hk] at hsp
      cases hsp
    · simpa [Step.core] using hcomp
    · simpa [Step.core] using harr
  · rw [snapAfter_append_one]
    simpa [Step.core] using harr
  · rw [List.length_set]
    exact hinv.2.2

/-- Appending one split step (which changes no array values and records
an in-bounds block split) preserves the recorder-state invariant. -/
theorem stateInv_push_split {s : VizState} {init : List Int} {c : StepCore}
    (hk : c.kind = StepKind.split) (harr : c.array = s.array)
    (hrange : ∃ a n, 2 ≤ n ∧ a + n ≤ s.array.length ∧
      c.left = (List.range (n / 2)).map (fun i => a + i) ∧
      c.right = (List.range (n - n / 2)).map (fun i => a + n / 2 + i))
    (hinv : stateInv init s) :
    stateInv init { array := s.array, steps := s.steps ++ [Step.mk c none] } := by
  refine ⟨stepsChain_append_one hinv.1 ?_, ?_, ?_⟩
  · rw [hinv.2.1]
    refine ⟨fun _ => ⟨by simpa [Step.core] using harr, ?_⟩, fun hm => ?_⟩
    · simpa [Step.core] using hrange
    · simp only [Step.core] at hm
      rw [hk] at hm
      cases hm
  · rw [snapAfter_append_one]
    simpa [Step.core] using harr
  · exact hinv.2.2

theorem drainLoop_spec (lv : Nat) : ∀ (xs result : List Int)
    (resultIdx : Nat) (s : VizState),
    resultIdx + xs.length ≤ s.array.length →
    ∃ s', drainLoop lv xs result resultIdx s =
        (result ++ xs, resultIdx + xs.length, s') ∧
      s'.array = writeSeq s.array resultIdx xs ∧
      (∃ ds, s'.steps = s.steps ++ ds) ∧
      (∀ init, stateInv init s → stateInv init s')
  | [], result, resultIdx, s => by
    intro _
    exact ⟨s, by simp [drainLoop], by simp [writeSeq],
      ⟨[], by simp⟩, fun _ h => h⟩
  | x :: xs, result, resultIdx, s => by
    intro h
    have hk : resultIdx < s.array.length := by
      simp only [List.length_cons] at h; omega
    obtain ⟨s', h1, h2, ⟨ds, h3⟩, h4⟩ :=
      drainLoop_spec lv xs (result ++ [x]) (resultIdx + 1)
        { array := s.array.set resultIdx x,
          steps := s.steps ++ [Step.mk
            { kind := .merge, array := s.array.set resultIdx x,
              left := [], right := [], comparing := [resultIdx],
              level := lv,
              description := "Adding remaining element " ++ toString x }
            none] }
        (by simp only [List.length_set, List.length_cons] at h ⊢; omega)
    refine ⟨s', ?_, ?_, ⟨_ :: ds, by simpa using h3⟩, fun init hinv =>
      h4 init (stateInv_push_merge rfl rfl rfl hk hinv)⟩
    · simp only [drainLoop]
      rw [h1]
      have hidx : resultIdx + 1 + xs.length = resultIdx + (x :: xs).length := by
        simp only [List.length_cons]; omega
      rw [hidx, List.append_assoc, List.singleton_append]
    · rw [h2]
      simp [writeSeq]

theorem merge_with_steps_eq (l r : List Int) (i lv : Nat) (s : VizState) :
    merge_with_steps l r i lv s = mergePipeline i lv l r [] i s := rfl

theorem mergePipeline_nil_left (startIdx lv : Nat) (r result : List Int)
    (resultIdx : Nat) (s : VizState)
    (hb : resultIdx + r.length ≤ s.array.length) :
    ∃ s', mergePipeline startIdx lv [] r result resultIdx s =
        (result ++ r, s') ∧
      s'.array = writeSeq s.array resultIdx r ∧
      (∃ ds, s'.steps = s.steps ++ ds) ∧
      (∀ init, stateInv init s → stateInv init s') := by
  obtain ⟨s', h1, h2, h3, h4⟩ := drainLoop_spec lv r result resultIdx s hb
  refine ⟨s', ?_, h2, h3, h4⟩
  simp only [mergePipeline, mergeMainLoop, drainLoop]
  rw [h1]

theorem mergePipeline_nil_right (startIdx lv : Nat) (l result : List Int)
    (resultIdx : Nat) (s : VizState)
    (hb : resultIdx + l.length ≤ s.array.length) :
    ∃ s', mergePipeline startIdx lv l [] result resultIdx s =
        (result ++ l, s') ∧
      s'.array = writeSeq s.array resultIdx l ∧
      (∃ ds, s'.steps = s.steps ++ ds) ∧
      (∀ init, stateInv init s → stateInv init s') := by
  cases l with
  | nil =>
    exact mergePipeline_nil_left startIdx lv [] result resultIdx s
      (by simpa using hb)
  | cons x ls =>
    obtain ⟨s', h1, h2, h3, h4⟩ :=
      drainLoop_spec lv (x :: ls) result resultIdx s hb
    refine ⟨s', ?_, h2, h3, h4⟩
    simp only [mergePipeline, mergeMainLoop]
    rw [h1]
    simp [drainLoop]

theorem mergePipeline_spec (startIdx lv : Nat) : ∀ (n : Nat)
    (l r result : List Int) (resultIdx : Nat) (s : VizState),
    l.length + r.length ≤ n →
    resultIdx = startIdx + result.length →
    resultIdx + l.length + r.length ≤ s.array.length →
    ∃ s', mergePipeline startIdx lv l r result resultIdx s =
        (result ++ mergeKey id l r, s') ∧
      s'.array = writeSeq s.array resultIdx (mergeKey id l r) ∧
      (∃ ds, s'.steps = s.steps ++ ds) ∧
      (∀ init, stateInv init s → stateInv init s') := by
  intro n
  induction n with
  | zero =>
    intro l r result resultIdx s hn _ hb
    have hl : l = [] := List.eq_nil_of_length_eq_zero (by omega)
    subst hl
    have hmk : mergeKey id [] r = r := by simp [mergeKey]
    rw [hmk]
    exact mergePipeline_nil_left startIdx lv r result resultIdx s
      (by simpa using hb)
  | succ n ih =>
    intro l r result resultIdx s hn hacc hb
    cases l with
    | nil =>
      have hmk : mergeKey id [] r = r := by simp [mergeKey]
      rw [hmk]
      exact mergePipeline_nil_left startIdx lv r result resultIdx s
        (by simpa using hb)
    | cons x ls =>
      cases r with
      | nil =>
        have hmk : mergeKey id (x :: ls) [] = x :: ls := by simp [mergeKey]
        rw [hmk]
        exact mergePipeline_nil_right startIdx lv (x :: ls) result
          resultIdx s (by simpa using hb)
      | cons y rs =>
        have hkb : resultIdx < s.array.length := by
          simp only [List.length_cons] at hb; omega
        by_cases hxy : x ≤ y
        · have hmk : mergeKey id (x :: ls) (y :: rs) =
              x :: mergeKey id ls (y :: rs) := by
            simp only [mergeKey, id_eq]
            rw [if_pos hxy]
          have hcmp : startIdx + (result ++ [x]).length - 1 = resultIdx := by
            simp only [List.length_append, List.length_cons,
              List.length_nil]
            omega
          obtain ⟨s', i1, i2, ⟨ds, i3⟩, i4⟩ := ih ls (y :: rs)
            (result ++ [x]) (resultIdx + 1)
            { array := s.array.set resultIdx x,
              steps := s.steps ++ [Step.mk
                { kind := .merge, array := s.array.set resultIdx x,
                  left := [], right := [],
                  comparing := [startIdx + (result ++ [x]).length - 1],
                  level := lv,
                  description := "Merging: placed " ++ toString x ++
                    " at position " ++ toString (resultIdx + 1 - 1) }
                none] }
            (by simp only [List.length_cons] at hn ⊢; omega)
            (by simp only [List.length_append, List.length_cons,
              List.length_nil]; omega)
            (by simp only [List.length_set, List.length_cons] at hb ⊢
                omega)
          have hpipe : mergePipeline startIdx lv (x :: ls) (y :: rs)
              result resultIdx s =
              mergePipeline startIdx lv ls (y :: rs) (result ++ [x])
                (resultIdx + 1)
                { array := s.array.set resultIdx x,
                  steps := s.steps ++ [Step.mk
                    { kind := .merge, array := s.array.set resultIdx x,
                      left := [], right := [],
                      comparing :=
                        [startIdx + (result ++ [x]).length - 1],
                      level := lv,
                      description := "Merging: placed " ++ toString x ++
                        " at position " ++ toString (resultIdx + 1 - 1) }
                    none] } := by
            simp only [mergePipeline, mergeMainLoop]
            rw [if_pos hxy]
          refine ⟨s', ?_, ?_, ⟨_ :: ds, by simpa using i3⟩,
            fun init hinv => i4 init (stateInv_push_merge rfl
              (by rw [hcmp]) rfl hkb hinv)⟩
          · rw [hpipe, i1, hmk, List.append_assoc, List.singleton_append]
          · rw [i2, hmk]
            simp [writeSeq]
        · have hmk : mergeKey id (x :: ls) (y :: rs) =
              y :: mergeKey id (x :: ls) rs := by
            simp only [mergeKey, id_eq]
            rw [if_neg hxy]
          have hcmp : startIdx + (result ++ [y]).length - 1 = resultIdx := by
            simp only [List.length_append, List.length_cons,
              List.length_nil]
            omega
          obtain ⟨s', i1, i2, ⟨ds, i3⟩, i4⟩ := ih (x :: ls) rs
            (result ++ [y]) (resultIdx + 1)
            { array := s.array.set resultIdx y,
              steps := s.steps ++ [Step.mk
                { kind := .merge, array := s.array.set resultIdx y,
                  left := [], right := [],
                  comparing := [startIdx + (result ++ [y]).length - 1],
                  level := lv,
                  description := "Merging: placed " ++ toString y ++
                    " at position " ++ toString (resultIdx + 1 - 1) }
                none] }
            (by simp only [List.length_cons] at hn ⊢; omega)
            (by simp only [List.length_append, List.length_cons,
              List.length_nil]; omega)
            (by simp only [List.length_set, List.length_cons] at hb ⊢
                omega)
          have hpipe : mergePipeline startIdx lv (x :: ls) (y :: rs)
              result resultIdx s =
              mergePipeline startIdx lv (x :: ls) rs (result ++ [y])
                (resultIdx + 1)
                { array := s.array.set resultIdx y,
                  steps := s.steps ++ [Step.mk
                    { kind := .merge, array := s.array.set resultIdx y,
                      left := [], right := [],
                      comparing :=
                        [startIdx + (result ++ [y]).length - 1],
                      level := lv,
                      description := "Merging: placed " ++ toString y ++
                        " at position " ++ toString (resultIdx + 1 - 1) }
                    none] } := by
            simp only [mergePipeline, mergeMainLoop]
            rw [if_neg hxy]
          refine ⟨s', ?_, ?_, ⟨_ :: ds, by simpa using i3⟩,
            fun init hinv => i4 init (stateInv_push_merge rfl
              (by rw [hcmp]) rfl hkb hinv)⟩
          · rw [hpipe, i1, hmk, List.append_assoc, List.singleton_append]
          · rw [i2, hmk]
            simp [writeSeq]

/-! ## Permutation, length and sortedness of the reference sort -/

theorem mergeKey_perm_fuel {α : Type} (key : α → Int) : ∀ (n : Nat)
    (l r : List α), l.length + r.length ≤ n →
    (mergeKey key l r).Perm (l ++ r)
  | _, [], r => fun _ => by simp [mergeKey]
  | _, x :: ls, [] => fun _ => by simp [mergeKey]
  | 0, x :: ls, y :: rs => fun hn => by simp at hn
  | n + 1, x :: ls, y :: rs => fun hn => by
    by_cases hxy : key x ≤ key y
    · rw [show mergeKey key (x :: ls) (y :: rs) =
        x :: mergeKey key ls (y :: rs) from by
          simp only [mergeKey]; rw [if_pos hxy]]
      exact (mergeKey_perm_fuel key n ls (y :: rs)
        (by simp only [List.length_cons] at hn ⊢; omega)).cons x
    · rw [show mergeKey key (x :: ls) (y :: rs) =
        y :: mergeKey key (x :: ls) rs from by
          simp only [mergeKey]; rw [if_neg hxy]]
      exact ((mergeKey_perm_fuel key n (x :: ls) rs
        (by simp only [List.length_cons] at hn ⊢; omega)).cons y).trans
        List.perm_middle.symm

theorem mergeKey_perm {α : Type} (key : α → Int) (l r : List α) :
    (mergeKey key l r).Perm (l ++ r) :=
  mergeKey_perm_fuel key (l.length + r.length) l r le_rfl

theorem msortKey_perm_fuel {α : Type} (key : α → Int) : ∀ (n : Nat)
    (l : List α), l.length ≤ n → (msortKey key l).Perm l
  | 0, l => fun hn => by
    have : l = [] := List.eq_nil_of_length_eq_zero (by omega)
    subst this
    simp [msortKey]
  | n + 1, l => fun hn => by
    by_cases h : l.length ≤ 1
    · rw [msortKey, if_pos h]
    · rw [msortKey, if_neg h]
      refine ((mergeKey_perm key _ _).trans ?_).trans
        (List.Perm.of_eq (List.take_append_drop (l.length / 2) l))
      exact List.Perm.append
        (msortKey_perm_fuel key n (l.take (l.length / 2))
          (by rw [List.length_take]; omega))
        (msortKey_perm_fuel key n (l.drop (l.length / 2))
          (by rw [List.length_drop]; omega))

theorem msortKey_perm {α : Type} (key : α → Int) (l : List α) :
    (msortKey key l).Perm l :=
  msortKey_perm_fuel key l.length l le_rfl

theorem msortKey_length {α : Type} (key : α → Int) (l : List α) :
    (msortKey key l).length = l.length :=
  (msortKey_perm key l).length_eq

theorem mergeKey_sorted_fuel {α : Type} (key : α → Int) : ∀ (n : Nat)
    (l r : List α), l.length + r.length ≤ n →
    l.Pairwise (fun a b => key a ≤ key b) →
    r.Pairwise (fun a b => key a ≤ key b) →
    (mergeKey key l r).Pairwise (fun a b => key a ≤ key b)
  | _, [], r => fun _ _ hr => by simpa [mergeKey] using hr
  | _, x :: ls, [] => fun _ hl _ => by simpa [mergeKey] using hl
  | 0, x :: ls, y :: rs => fun hn _ _ => by simp at hn
  | n + 1, x :: ls, y :: rs => fun hn hl hr => by
    by_cases hxy : key x ≤ key y
    · rw [show mergeKey key (x :: ls) (y :: rs) =
        x :: mergeKey key ls (y :: rs) from by
          simp only [mergeKey]; rw [if_pos hxy]]
      refine List.Pairwise.cons (fun b hb => ?_)
        (mergeKey_sorted_fuel key n ls (y :: rs)
          (by simp only [List.length_cons] at hn ⊢; omega)
          (List.Pairwise.of_cons hl) hr)
      have hb' : b ∈ ls ++ y :: rs :=
        (mergeKey_perm key ls (y :: rs)).mem_iff.mp hb
      rcases List.mem_append.mp hb' with h | h
      · exact List.rel_of_pairwise_cons hl h
      · rcases List.mem_cons.mp h with h | h
        · exact h ▸ hxy
        · exact le_trans hxy (List.rel_of_pairwise_cons hr h)
    · rw [show mergeKey key (x :: ls) (y :: rs) =
        y :: mergeKey key (x :: ls) rs from by
          simp only [mergeKey]; rw [if_neg hxy]]
      refine List.Pairwise.cons (fun b hb => ?_)
        (mergeKey_sorted_fuel key n (x :: ls) rs
          (by simp only [List.length_cons] at hn ⊢; omega)
          hl (List.Pairwise.of_cons hr))
      have hb' : b ∈ (x :: ls) ++ rs :=
        (mergeKey_perm key (x :: ls) rs).mem_iff.mp hb
      have hyx : key y ≤ key x := le_of_lt (lt_of_not_le hxy)
      rcases List.mem_append.mp hb' with h | h
      · rcases List.mem_cons.mp h with h | h
        · exact h ▸ hyx
        · exact le_trans hyx (List.rel_of_pairwise_cons hl h)
      · exact List.rel_of_pairwise_cons hr h

theorem msortKey_sorted_fuel {α : Type} (key : α → Int) : ∀ (n : Nat)
    (l : List α), l.length ≤ n →
    (msortKey key l).Pairwise (fun a b => key a ≤ key b)
  | 0, l => fun hn => by
    have : l = [] := List.eq_nil_of_length_eq_zero (by omega)
    subst this
    simp [msortKey]
  | n + 1, l => fun hn => by
    by_cases h : l.length ≤ 1
    · rw [msortKey, if_pos h]
      match l, h with
      | [], _ => exact List.Pairwise.nil
      | [x], _ => exact List.pairwise_singleton _ x
    · rw [msortKey, if_neg h]
      exact mergeKey_sorted_fuel key
        ((msortKey key (l.take (l.length / 2))).length +
          (msortKey key (l.drop (l.length / 2))).length) _ _ le_rfl
        (msortKey_sorted_fuel key n (l.take (l.length / 2))
          (by rw [List.length_take]; omega))
        (msortKey_sorted_fuel key n (l.drop (l.length / 2))
          (by rw [List.length_drop]; omega))

theorem msortKey_sorted {α : Type} (key : α → Int) (l : List α) :
    (msortKey key l).Pairwise (fun a b => key a ≤ key b) :=
  msortKey_sorted_fuel key l.length l le_rfl

theorem merge_sort_with_steps_base (arr : List Int) (startIdx level : Nat)
    (s : VizState) (h1 : arr.length ≤ 1) :
    merge_sort_with_steps arr startIdx level s = (arr, s) := by
  unfold merge_sort_with_steps
  rw [if_pos h1]

theorem writeSeq_self_of_agree (arr : List Int) (startIdx : Nat)
    (s : VizState) (h1 : arr.length ≤ 1)
    (harr : ∀ k, k < arr.length → s.array[startIdx + k]? = arr[k]?) :
    writeSeq s.array startIdx arr = s.array := by
  match arr, h1 with
  | [], _ => rfl
  | [x], _ =>
    show (s.array.set startIdx x) = s.array
    apply set_getElem?_self
    have := harr 0 (by simp)
    simpa using this

theorem merge_sort_with_steps_spec : ∀ (n : Nat) (arr : List Int)
    (startIdx level : Nat) (s : VizState), arr.length ≤ n →
    startIdx + arr.length ≤ s.array.length →
    (∀ k, k < arr.length → s.array[startIdx + k]? = arr[k]?) →
    ∃ s', merge_sort_with_steps arr startIdx level s =
        (msortKey id arr, s') ∧
      s'.array = writeSeq s.array startIdx (msortKey id arr) ∧
      (∃ ts, s'.steps = s.steps ++ ts ∧
        (¬arr.length ≤ 1 →
          ∃ st0 rest, ts = st0 :: rest ∧
            st0.core.kind = StepKind.split)) ∧
      (∀ init, stateInv init s → stateInv init s') := by
  intro n
  induction n with
  | zero =>
    intro arr startIdx level s hn hb harr
    have h1 : arr.length ≤ 1 := by omega
    have hms : msortKey id arr = arr := by rw [msortKey, if_pos h1]
    rw [hms]
    exact ⟨s, merge_sort_with_steps_base arr startIdx level s h1,
      (writeSeq_self_of_agree arr startIdx s h1 harr).symm,
      ⟨[], by simp, fun hc => absurd h1 hc⟩, fun _ h => h⟩
  | succ n ih =>
    intro arr startIdx level s hn hb harr
    by_cases h1 : arr.length ≤ 1
    · have hms : msortKey id arr = arr := by rw [msortKey, if_pos h1]
      rw [hms]
      exact ⟨s, merge_sort_with_steps_base arr startIdx level s h1,
        (writeSeq_self_of_agree arr startIdx s h1 harr).symm,
        ⟨[], by simp, fun hc => absurd h1 hc⟩, fun _ h => h⟩
    · have hlen2 : 2 ≤ arr.length := by omega
      have hmid1 : 1 ≤ arr.length / 2 := by omega
      have hmidlt : arr.length / 2 < arr.length := by omega
      have htl : (arr.take (arr.length / 2)).length = arr.length / 2 := by
        rw [List.length_take]; omega
      have hdl : (arr.drop (arr.length / 2)).length =
          arr.length - arr.length / 2 := List.length_drop _ _
      -- left recursive call
      obtain ⟨s2, hL, hLarr, ⟨t1, hLsteps, _⟩, hLinv⟩ :=
        ih (arr.take (arr.length / 2)) startIdx (level + 1)
          { array := s.array,
            steps := s.steps ++ [Step.mk
              { kind := .split, array := s.array,
                left := (List.range
                    (arr.take (arr.length / 2)).length).map
                  (fun i => startIdx + i),
                right := (List.range
                    (arr.drop (arr.length / 2)).length).map
                  (fun i => startIdx + arr.length / 2 + i),
                comparing := [], level := level,
                description := "Splitting array at position " ++
                  toString (arr.length / 2) } none] }
          (by omega)
          (by simpa [htl] using (by omega :
            startIdx + arr.length / 2 ≤ s.array.length))
          (by intro k hk
              rw [htl] at hk
              show s.array[startIdx + k]? = _
              rw [harr k (by omega), List.getElem?_take_of_lt hk])
      have hLarr' : s2.array = writeSeq s.array startIdx
          (msortKey id (arr.take (arr.length / 2))) := hLarr
      have hLlen : (msortKey id (arr.take (arr.length / 2))).length =
          arr.length / 2 := by rw [msortKey_length, htl]
      have hs2len : s2.array.length = s.array.length := by
        rw [hLarr', writeSeq_length]
      -- right recursive call
      obtain ⟨s3, hR, hRarr, ⟨t2, hRsteps, _⟩, hRinv⟩ :=
        ih (arr.drop (arr.length / 2)) (startIdx + arr.length / 2)
          (level + 1) s2
          (by rw [hdl]; omega)
          (by rw [hdl, hs2len]; omega)
          (by intro k hk
              rw [hdl] at hk
              rw [hLarr', writeSeq_getElem? _ _ _ _
                (by rw [hLlen]; omega)]
              rw [if_neg (by rw [hLlen]; omega)]
              have h2 : startIdx + arr.length / 2 + k =
                  startIdx + (arr.length / 2 + k) := by omega
              rw [h2, harr (arr.length / 2 + k) (by omega),
                List.getElem?_drop])
      have hRlen : (msortKey id (arr.drop (arr.length / 2))).length =
          arr.length - arr.length / 2 := by rw [msortKey_length, hdl]
      have hs3len : s3.array.length = s.array.length := by
        rw [hRarr, writeSeq_length, hs2len]
      -- the final merge
      have hM : mergeKey id (msortKey id (arr.take (arr.length / 2)))
          (msortKey id (arr.drop (arr.length / 2))) = msortKey id arr := by
        rw [show msortKey id arr = _ from by rw [msortKey, if_neg h1]]
      have hMlen : (msortKey id arr).length = arr.length :=
        msortKey_length id arr
      obtain ⟨s4, p1, p2, ⟨d3, p3⟩, p4⟩ := mergePipeline_spec startIdx level
        ((msortKey id (arr.take (arr.length / 2))).length +
          (msortKey id (arr.drop (arr.length / 2))).length)
        (msortKey id (arr.take (arr.length / 2)))
        (msortKey id (arr.drop (arr.length / 2))) [] startIdx s3
        le_rfl (by simp)
        (by rw [hLlen, hRlen, hs3len]; omega)
      have hun : merge_sort_with_steps arr startIdx level s =
          merge_with_steps (msortKey id (arr.take (arr.length / 2)))
            (msortKey id (arr.drop (arr.length / 2))) startIdx level s3 := by
        unfold merge_sort_with_steps
        rw [if_neg h1]
        simp only [hL, hR]
      refine ⟨s4, ?_, ?_, ?_, ?_⟩
      · rw [hun, merge_with_steps_eq, p1, hM]
        simp
      · rw [p2, hM, hRarr]
        rw [writeSeq_absorb s2.array startIdx (startIdx + arr.length / 2)
          _ _ (by omega) (by rw [hRlen, hMlen]; omega)
          (by rw [hMlen, hs2len]; omega)]
        rw [hLarr']
        rw [writeSeq_absorb s.array startIdx startIdx _ _ le_rfl
          (by rw [hLlen, hMlen]; omega) (by rw [hMlen]; omega)]
      · refine ⟨Step.mk
          { kind := .split, array := s.array,
            left := (List.range (arr.take (arr.length / 2)).length).map
              (fun i => startIdx + i),
            right := (List.range (arr.drop (arr.length / 2)).length).map
              (fun i => startIdx + arr.length / 2 + i),
            comparing := [], level := level,
            description := "Splitting array at position " ++
              toString (arr.length / 2) } none :: (t1 ++ (t2 ++ d3)),
          ?_, fun _ => ⟨_, _, rfl, rfl⟩⟩
        rw [p3, hRsteps, hLsteps]
        simp
      · intro init hinv
        refine p4 init (hRinv init (hLinv init
          (stateInv_push_split rfl rfl ?_ hinv)))
        exact ⟨startIdx, arr.length, hlen2, hb,
          by rw [htl], by rw [hdl]⟩

/-! ## Facts about a full recorder run -/

theorem runRecorder_props (seq : List Int) :
    (runRecorder seq).array = msortKey id seq ∧
    stateInv seq (runRecorder seq) ∧
    record seq = (runRecorder seq).steps ∧
    (¬seq.length ≤ 1 → ∃ st0 rest, record seq = st0 :: rest ∧
      st0.core.kind = StepKind.split) := by
  obtain ⟨s', h1, h2, ⟨ts, h3, h4⟩, h5⟩ :=
    merge_sort_with_steps_spec seq.length seq 0 0
      { array := seq, steps := [] } le_rfl (by simp)
      (by intro k hk; simp)
  have hrun : runRecorder seq = s' := by
    rw [runRecorder, h1]
  have hsteps : record seq = ts := by
    rw [record, hrun, h3]
    simp
  refine ⟨?_, ?_, rfl, ?_⟩
  · rw [hrun, h2, writeSeq_full _ _ (by rw [msortKey_length])]
  · rw [hrun]
    exact h5 seq ⟨trivial, rfl, rfl⟩
  · intro hlong
    obtain ⟨st0, rest, hts, hkind⟩ := h4 hlong
    exact ⟨st0, rest, by rw [hsteps, hts], hkind⟩

theorem record_steps_chain (seq : List Int) :
    stepsChain seq (record seq) :=
  (runRecorder_props seq).2.2.1 ▸ (runRecorder_props seq).2.1.1

theorem record_snapAfter (seq : List Int) :
    snapAfter seq (record seq) = msortKey id seq := by
  have h := (runRecorder_props seq).2.1.2.1
  rw [← (runRecorder_props seq).2.2.1] at h
  rw [h, (runRecorder_props seq).1]

/-! ## Extracting per-step facts from a chain -/

theorem stepsChain_get? : ∀ (steps : List Step) (init : List Int),
    stepsChain init steps → ∀ (i : Nat) (prv st : Step),
    steps[i]? = some prv → steps[i + 1]? = some st →
    stepOkFrom prv.core.array st
  | [], _, _ => by intro i prv st hp; simp at hp
  | hd :: tl, init, h => by
    intro i prv st hp hs
    cases i with
    | zero =>
      have hprv : hd = prv := by simpa using hp
      subst hprv
      cases tl with
      | nil => simp at hs
      | cons t ts =>
        have hst : t = st := by simpa using hs
        subst hst
        exact h.2.1
    | succ i =>
      exact stepsChain_get? tl hd.core.array h.2 i prv st
        (by simpa using hp) (by simpa using hs)

theorem stepsChain_mem_split : ∀ (steps : List Step) (init : List Int),
    stepsChain init steps → ∀ st ∈ steps,
    st.core.kind = StepKind.split →
    ∃ a n, 2 ≤ n ∧ a + n ≤ st.core.array.length ∧
      st.core.left = (List.range (n / 2)).map (fun i => a + i) ∧
      st.core.right = (List.range (n - n / 2)).map (fun i => a + n / 2 + i)
  | [], _, _ => by intro st hst; simp at hst
  | hd :: tl, init, h => by
    intro st hst hkind
    rcases List.mem_cons.mp hst with heq | hmem
    · subst heq
      obtain ⟨harr, a, n, hn, hb, hl, hr⟩ := h.1.1 hkind
      exact ⟨a, n, hn, by rw [harr]; exact hb, hl, hr⟩
    · exact stepsChain_mem_split tl hd.core.array h.2 st hmem hkind

/-- C1: for every input with at least one recorded step (any input of
length ≥ 2), the snapshot of the last step of the trace produced by
`record` is sorted in non-decreasing order and is a permutation of the
input sequence. -/
theorem record_final_sorted_perm (seq : List Int) (h : 2 ≤ seq.length) :
    ∃ st, (record seq).getLast? = some st ∧
      st.core.array.Pairwise (fun a b : Int => a ≤ b) ∧
      st.core.array.Perm seq := by
  obtain ⟨st0, rest, hrec, _⟩ :=
    (runRecorder_props seq).2.2.2 (by omega)
  obtain ⟨last, hlast⟩ : ∃ st, (record seq).getLast? = some st := by
    cases hgl : (record seq).getLast? with
    | none =>
      rw [List.getLast?_eq_none_iff] at hgl
      rw [hrec] at hgl
      cases hgl
    | some st => exact ⟨st, rfl⟩
  have hsnap : last.core.array = msortKey id seq := by
    have := record_snapAfter seq
    rw [snapAfter, hlast] at this
    exact this
  refine ⟨last, hlast, ?_, ?_⟩
  · rw [hsnap]
    simpa using msortKey_sorted id seq
  · rw [hsnap]
    exact msortKey_perm id seq

/-- Witness for C1 at the concrete input `[5, 3, 8, 1]`. -/
theorem record_final_sorted_perm_witness :
    ∃ st, (record [5, 3, 8, 1]).getLast? = some st ∧
      st.core.array.Pairwise (fun a b : Int => a ≤ b) ∧
      st.core.array.Perm [5, 3, 8, 1] :=
  record_final_sorted_perm [5, 3, 8, 1] (by simp)

/-- C4: consecutive snapshots in a recorded trace differ at most at the
indices touched by the later step: the snapshot of a merge (Place) step
can differ from the preceding snapshot only at the single index in its
`comparing` list, and the snapshot of a split step is identical to the
preceding one. -/
theorem snapshot_delta (seq : List Int) (i : Nat) (prv st : Step)
    (hp : (record seq)[i]? = some prv)
    (hs : (record seq)[i + 1]? = some st) :
    (st.core.kind = StepKind.split → st.core.array = prv.core.array) ∧
    (st.core.kind = StepKind.merge → ∃ k, st.core.comparing = [k] ∧
      ∀ m, m ≠ k → st.core.array[m]? = prv.core.array[m]?) := by
  have hok := stepsChain_get? (record seq) seq (record_steps_chain seq)
    i prv st hp hs
  refine ⟨fun hk => (hok.1 hk).1, fun hk => ?_⟩
  obtain ⟨k, v, hc, _, harr⟩ := hok.2 hk
  refine ⟨k, hc, fun m hm => ?_⟩
  rw [harr, List.getElem?_set_ne (fun h => hm h.symm)]

/-- Witness for C4: the second step for input `[5, 3, 8, 1]` is the split
of the left half, and its snapshot equals the preceding snapshot. -/
theorem snapshot_delta_witness :
    (Step.mk
      { kind := .split, array := [5, 3, 8, 1], left := [0], right := [1],
        comparing := [], level := 1,
        description := "Splitting array at position 1" } none).core.array =
    (Step.mk
      { kind := .split, array := [5, 3, 8, 1], left := [0, 1],
        right := [2, 3], comparing := [], level := 0,
        description := "Splitting array at position 2" } none).core.array :=
  (snapshot_delta [5, 3, 8, 1] 0
      (Step.mk
        { kind := .split, array := [5, 3, 8, 1], left := [0, 1],
          right := [2, 3], comparing := [], level := 0,
          description := "Splitting array at position 2" } none)
      (Step.mk
        { kind := .split, array := [5, 3, 8, 1], left := [0], right := [1],
          comparing := [], level := 1,
          description := "Splitting array at position 1" } none)
      (by simp [record, runRecorder, merge_sort_with_steps,
        merge_with_steps, mergeMainLoop, drainLoop]
          decide)
      (by simp [record, runRecorder, merge_sort_with_steps,
        merge_with_steps, mergeMainLoop, drainLoop]
          decide)).1 rfl

/-- C5: for every split step, `left` and `right` are two disjoint contiguous
order-preserving index ranges covering exactly some block `[a, a+n)` of
the original array, split at `mid = n / 2` (floor), in absolute
coordinates; for every merge (Place) step, `comparing` is exactly the
single absolute in-bounds index just written (the trace starts with a
split, so every merge step has a predecessor). -/
theorem affected_indices (seq : List Int) :
    (∀ st, (record seq)[0]? = some st →
      st.core.kind = StepKind.split) ∧
    (∀ st ∈ record seq, st.core.kind = StepKind.split →
      ∃ a n, 2 ≤ n ∧ a + n ≤ st.core.array.length ∧
        st.core.left = (List.range (n / 2)).map (fun i => a + i) ∧
        st.core.right =
          (List.range (n - n / 2)).map (fun i => a + n / 2 + i)) ∧
    (∀ j prv st, (record seq)[j]? = some prv →
      (record seq)[j + 1]? = some st →
      st.core.kind = StepKind.merge →
      ∃ k v, st.core.comparing = [k] ∧ k < prv.core.array.length ∧
        st.core.array = prv.core.array.set k v) := by
  refine ⟨?_, ?_, ?_⟩
  · intro st h0
    by_cases hlen : seq.length ≤ 1
    · rw [record, runRecorder,
        merge_sort_with_steps_base seq 0 0 _ hlen] at h0
      simp at h0
    · obtain ⟨st0, rest, hrec, hkind⟩ :=
        (runRecorder_props seq).2.2.2 hlen
      rw [hrec] at h0
      have : st0 = st := by simpa using h0
      exact this ▸ hkind
  · exact stepsChain_mem_split (record seq) seq (record_steps_chain seq)
  · intro j prv st hp hs hk
    exact (stepsChain_get? (record seq) seq (record_steps_chain seq)
      j prv st hp hs).2 hk

/-- Witness for C5 at input `[2, 1]`: its root split covers block
`[0, 2)` and its first merge step writes index 0. -/
theorem affected_indices_witness :
    (∃ a n, 2 ≤ n ∧
      a + n ≤ (Step.mk
        { kind := .split, array := [2, 1], left := [0], right := [1],
          comparing := [], level := 0,
          description := "Splitting array at position 1" }
        none).core.array.length ∧
      (Step.mk
        { kind := .split, array := [2, 1], left := [0], right := [1],
          comparing := [], level := 0,
          description := "Splitting array at position 1" }
        none).core.left = (List.range (n / 2)).map (fun i => a + i) ∧
      (Step.mk
        { kind := .split, array := [2, 1], left := [0], right := [1],
          comparing := [], level := 0,
          description := "Splitting array at position 1" }
        none).core.right =
        (List.range (n - n / 2)).map (fun i => a + n / 2 + i)) :=
  (affected_indices [2, 1]).2.1
    (Step.mk
      { kind := .split, array := [2, 1], left := [0], right := [1],
        comparing := [], level := 0,
        description := "Splitting array at position 1" } none)
    (by simp [record, runRecorder, merge_sort_with_steps,
          merge_with_steps, mergeMainLoop, drainLoop, List.mem_cons]
        decide)
    rfl

/-- C7: `record` is a total function on all finite integer sequences, and
on the empty and every single-element sequence it returns a trace with
zero steps (no split is possible for length ≤ 1). -/
theorem record_short_nil (seq : List Int) (h : seq.length ≤ 1) :
    record seq = [] := by
  rw [record, runRecorder, merge_sort_with_steps_base seq 0 0 _ h]

/-- Witness for C7: `record []` and `record [7]`. -/
theorem record_short_nil_witness :
    record ([] : List Int) = [] ∧ record [7] = [] :=
  ⟨record_short_nil [] (by simp), record_short_nil [7] (by simp)⟩

/-- C3: on input `[5, 3, 8, 1]` the recorder emits exactly this fixed
sequence of 11 steps: the root split (`left = [0,1]`, `right = [2,3]`),
then the steps fully resolving `[5,3]` to `[3,5]`, then those resolving
`[8,1]` to `[1,8]`, then the placements of the final merge ending in the
snapshot `[1, 3, 5, 8]`. -/
theorem record_concrete_5381 :
    record [5, 3, 8, 1] =
      [Step.mk
        { kind := .split, array := [5, 3, 8, 1], left := [0, 1],
          right := [2, 3], comparing := [], level := 0,
          description := "Splitting array at position 2" } none,
       Step.mk
        { kind := .split, array := [5, 3, 8, 1], left := [0],
          right := [1], comparing := [], level := 1,
          description := "Splitting array at position 1" } none,
       Step.mk
        { kind := .merge, array := [3, 3, 8, 1], left := [], right := [],
          comparing := [0], level := 1,
          description := "Merging: placed 3 at position 0" } none,
       Step.mk
        { kind := .merge, array := [3, 5, 8, 1], left := [], right := [],
          comparing := [1], level := 1,
          description := "Adding remaining element 5" } none,
       Step.mk
        { kind := .split, array := [3, 5, 8, 1], left := [2],
          right := [3], comparing := [], level := 1,
          description := "Splitting array at position 1" } none,
       Step.mk
        { kind := .merge, array := [3, 5, 1, 1], left := [], right := [],
          comparing := [2], level := 1,
          description := "Merging: placed 1 at position 2" } none,
       Step.mk
        { kind := .merge, array := [3, 5, 1, 8], left := [], right := [],
          comparing := [3], level := 1,
          description := "Adding remaining element 8" } none,
       Step.mk
        { kind := .merge, array := [1, 5, 1, 8], left := [], right := [],
          comparing := [0], level := 0,
          description := "Merging: placed 1 at position 0" } none,
       Step.mk
        { kind := .merge, array := [1, 3, 1, 8], left := [], right := [],
          comparing := [1], level := 0,
          description := "Merging: placed 3 at position 1" } none,
       Step.mk
        { kind := .merge, array := [1, 3, 5, 8], left := [], right := [],
          comparing := [2], level := 0,
          description := "Merging: placed 5 at position 2" } none,
       Step.mk
        { kind := .merge, array := [1, 3, 5, 8], left := [], right := [],
          comparing := [3], level := 0,
          description := "Adding remaining element 8" } none] ∧
    (record [5, 3, 8, 1]).length = 11 := by
  constructor
  · simp [record, runRecorder, merge_sort_with_steps, merge_with_steps,
      mergeMainLoop, drainLoop]
    decide
  · simp [record, runRecorder, merge_sort_with_steps, merge_with_steps,
      mergeMainLoop, drainLoop]

/-- C2 (code evidence): one auto-play iteration (`Tick`) taken with the
cursor on the last step of a 3-step trace (the trace of input `[2, 1]`)
moves the cursor to `len`, *outside* `[0, len-1]`, while setting
`is_playing := false`; the claimed invariant `cursor ≤ len - 1` is
violated. -/
theorem tick_overshoots_end :
    (record [2, 1]).length = 3 ∧
    tickAuto 3 { current_step := 2, is_playing := true } =
      { current_step := 3, is_playing := false } ∧
    ¬((tickAuto 3 { current_step := 2, is_playing := true }).current_step
      ≤ 3 - 1) := by
  refine ⟨?_, by decide, by decide⟩
  simp [record, runRecorder, merge_sort_with_steps, merge_with_steps,
    mergeMainLoop, drainLoop]

/-- C8 (code evidence): at the boundaries the `Previous` and `Next`
handlers leave the state — including `is_playing` — completely unchanged:
from cursor 0, `Previous` keeps `is_playing = true`, and from cursor
`len - 1` (trace of `[2, 1]`, `len = 3`), `Next` keeps
`is_playing = true`; the claim that they always force `playing = false`
fails there. -/
theorem prev_next_keep_playing_at_bounds :
    (record [2, 1]).length = 3 ∧
    prevClick { current_step := 0, is_playing := true } =
      { current_step := 0, is_playing := true } ∧
    nextClick 3 { current_step := 2, is_playing := true } =
      { current_step := 2, is_playing := true } := by
  refine ⟨?_, by decide, by decide⟩
  simp [record, runRecorder, merge_sort_with_steps, merge_with_steps,
    mergeMainLoop, drainLoop]

/-- C10: the recorder is deterministic — a run depends only on the input
sequence, not on the ambient environment (wall-clock, randomness), so two
runs on the same input agree in length and, position by position, in
`kind`, `affectedIndices` (`left`/`right`/`comparing`) and snapshot. -/
theorem record_deterministic (seed1 seed2 : Nat) (seq : List Int) :
    recordRun seed1 seq = recordRun seed2 seq ∧
    (recordRun seed1 seq).length = (recordRun seed2 seq).length ∧
    ∀ i : Nat, ((recordRun seed1 seq)[i]?).map
        (fun st : Step => (st.core.kind, st.core.left, st.core.right,
          st.core.comparing, st.core.array)) =
      ((recordRun seed2 seq)[i]?).map
        (fun st : Step => (st.core.kind, st.core.left, st.core.right,
          st.core.comparing, st.core.array)) :=
  ⟨rfl, rfl, fun _ => rfl⟩

/-- C9 (counterexample): the display code *does* modify the trace: after
one view of cursor 1 of the trace of `[2, 1]`, the step record stored at
position 1 has gained a `previous_step` entry, so the trace is no longer
equal to the one the recorder produced. -/
theorem attachPrev_mutates_trace :
    attachPrev (record [2, 1]) 1 ≠ record [2, 1] := by
  have hrec : record [2, 1] =
      [Step.mk
        { kind := .split, array := [2, 1], left := [0], right := [1],
          comparing := [], level := 0,
          description := "Splitting array at position 1" } none,
       Step.mk
        { kind := .merge, array := [1, 1], left := [], right := [],
          comparing := [0], level := 0,
          description := "Merging: placed 1 at position 0" } none,
       Step.mk
        { kind := .merge, array := [1, 2], left := [], right := [],
          comparing := [1], level := 0,
          description := "Adding remaining element 2" } none] := by
    simp [record, runRecorder, merge_sort_with_steps, merge_with_steps,
      mergeMainLoop, drainLoop]
    decide
  rw [hrec]
  intro h
  have h2 := congrArg
    (fun l : List Step => (l[1]?).map (fun st => st.prevEntry.isSome)) h
  simp [attachPrev, Step.prevEntry, Step.core] at h2

/-- C9 (amended): the view-time mutation is limited to attaching a
`previous_step` reference at the cursor position: the core payload
(`kind`, snapshot, `affectedIndices`, `depth`, `description`) of every
step is unchanged, and every position other than the cursor is untouched
(playback transitions themselves never touch the trace at all — they are
functions of `PlaybackState` only). -/
theorem attachPrev_preserves_core (steps : List Step) (cursor : Nat) :
    (attachPrev steps cursor).map Step.core = steps.map Step.core ∧
    ∀ j : Nat, j ≠ cursor → (attachPrev steps cursor)[j]? = steps[j]? := by
  unfold attachPrev
  by_cases hg : cursor < steps.length ∧ 0 < cursor
  · rw [if_pos hg]
    cases hc : steps.get? cursor with
    | none => exact ⟨rfl, fun _ _ => rfl⟩
    | some cur =>
      cases hp : steps.get? (cursor - 1) with
      | none => exact ⟨rfl, fun _ _ => rfl⟩
      | some prv =>
        constructor
        · rw [List.map_set]
          apply set_getElem?_self
          rw [List.getElem?_map, ← List.get?_eq_getElem?, hc]
          rfl
        · intro j hj
          exact List.getElem?_set_ne (fun he => hj he.symm)
  · rw [if_neg hg]
    exact ⟨rfl, fun _ _ => rfl⟩

/-- Witness for the amended C9: instantiated at the trace of `[2, 1]`
with cursor 1. -/
theorem attachPrev_preserves_core_witness :
    (attachPrev (record [2, 1]) 1).map Step.core =
      (record [2, 1]).map Step.core ∧
    ∀ j : Nat, j ≠ 1 →
      (attachPrev (record [2, 1]) 1)[j]? = (record [2, 1])[j]? :=
  attachPrev_preserves_core (record [2, 1]) 1

/-! ## The provenance-tagged reference stable sort (spec §8, Stability) -/

theorem mergeKey_map_fuel {α β : Type} (g : α → β) (kα : α → Int)
    (kβ : β → Int) (hk : ∀ a, kβ (g a) = kα a) : ∀ (n : Nat)
    (l r : List α), l.length + r.length ≤ n →
    (mergeKey kα l r).map g = mergeKey kβ (l.map g) (r.map g)
  | _, [], r => fun _ => by simp [mergeKey]
  | _, x :: ls, [] => fun _ => by simp [mergeKey]
  | 0, x :: ls, y :: rs => fun hn => by simp at hn
  | n + 1, x :: ls, y :: rs => fun hn => by
    have hrec := mergeKey_map_fuel g kα kβ hk n
    by_cases hxy : kα x ≤ kα y
    · rw [show mergeKey kα (x :: ls) (y :: rs) =
        x :: mergeKey kα ls (y :: rs) from by
          simp only [mergeKey]; rw [if_pos hxy]]
      rw [List.map_cons, List.map_cons, List.map_cons,
        show mergeKey kβ (g x :: ls.map g) (g y :: rs.map g) =
          g x :: mergeKey kβ (ls.map g) (g y :: rs.map g) from by
            simp only [mergeKey]
            rw [if_pos (by rw [hk, hk]; exact hxy)]]
      rw [← List.map_cons]
      exact congrArg _ (hrec ls (y :: rs)
        (by simp only [List.length_cons] at hn ⊢; omega))
    · rw [show mergeKey kα (x :: ls) (y :: rs) =
        y :: mergeKey kα (x :: ls) rs from by
          simp only [mergeKey]; rw [if_neg hxy]]
      rw [List.map_cons, List.map_cons, List.map_cons,
        show mergeKey kβ (g x :: ls.map g) (g y :: rs.map g) =
          g y :: mergeKey kβ (g x :: ls.map g) (rs.map g) from by
            simp only [mergeKey]
            rw [if_neg (by rw [hk, hk]; exact hxy)]]
      rw [← List.map_cons]
      exact congrArg _ (hrec (x :: ls) rs
        (by simp only [List.length_cons] at hn ⊢; omega))

theorem msortKey_map_fuel {α β : Type} (g : α → β) (kα : α → Int)
    (kβ : β → Int) (hk : ∀ a, kβ (g a) = kα a) : ∀ (n : Nat) (l : List α),
    l.length ≤ n → (msortKey kα l).map g = msortKey kβ (l.map g)
  | 0, l => fun hn => by
    have : l = [] := List.eq_nil_of_length_eq_zero (by omega)
    subst this
    simp [msortKey]
  | n + 1, l => fun hn => by
    by_cases h : l.length ≤ 1
    · rw [msortKey, if_pos h, msortKey, if_pos (by simpa using h)]
    · rw [msortKey, if_neg h]
      conv_rhs => rw [msortKey]
      rw [if_neg (by simpa using h)]
      rw [mergeKey_map_fuel g kα kβ hk
        ((msortKey kα (l.take (l.length / 2))).length +
          (msortKey kα (l.drop (l.length / 2))).length) _ _ le_rfl]
      rw [msortKey_map_fuel g kα kβ hk n (l.take (l.length / 2))
          (by rw [List.length_take]; omega),
        msortKey_map_fuel g kα kβ hk n (l.drop (l.length / 2))
          (by rw [List.length_drop]; omega)]
      rw [← List.map_take, ← List.map_drop, List.length_map]

theorem tag_map_fst : ∀ (l : List Int) (n : Nat),
    (tag l n).map Prod.fst = l
  | [], _ => rfl
  | x :: xs, n => by
    rw [tag, List.map_cons, tag_map_fst xs (n + 1)]

theorem tag_length : ∀ (l : List Int) (n : Nat), (tag l n).length = l.length
  | [], _ => rfl
  | x :: xs, n => by rw [tag, List.length_cons, tag_length xs (n + 1),
      List.length_cons]

theorem tag_mem_snd_le : ∀ (l : List Int) (n : Nat) (p : Int × Nat),
    p ∈ tag l n → n ≤ p.2
  | [], _, _ => by intro h; simp [tag] at h
  | x :: xs, n, p => by
    intro h
    rcases List.mem_cons.mp h with heq | hmem
    · subst heq; exact le_rfl
    · exact le_trans (by omega) (tag_mem_snd_le xs (n + 1) p hmem)

theorem tag_tags_lt : ∀ (l : List Int) (n : Nat),
    (tag l n).Pairwise (fun a b => a.2 < b.2)
  | [], _ => List.Pairwise.nil
  | x :: xs, n => by
    rw [tag]
    refine List.Pairwise.cons (fun b hb => ?_) (tag_tags_lt xs (n + 1))
    have := tag_mem_snd_le xs (n + 1) b hb
    omega

theorem lexRel_fst_le {a b : Int × Nat} (h : lexRel a b) : a.1 ≤ b.1 :=
  h.elim le_of_lt (fun h => le_of_eq h.1)

theorem mergeKey_stable_fuel : ∀ (n : Nat) (l r : List (Int × Nat)),
    l.length + r.length ≤ n →
    l.Pairwise lexRel → r.Pairwise lexRel →
    (∀ a ∈ l, ∀ b ∈ r, a.2 < b.2) →
    (mergeKey Prod.fst l r).Pairwise lexRel
  | _, [], r => fun _ _ hr _ => by simpa [mergeKey] using hr
  | _, x :: ls, [] => fun _ hl _ _ => by simpa [mergeKey] using hl
  | 0, x :: ls, y :: rs => fun hn _ _ _ => by simp at hn
  | n + 1, x :: ls, y :: rs => fun hn hl hr hcross => by
    by_cases hxy : x.1 ≤ y.1
    · rw [show mergeKey Prod.fst (x :: ls) (y :: rs) =
        x :: mergeKey Prod.fst ls (y :: rs) from by
          simp only [mergeKey]; rw [if_pos hxy]]
      refine List.Pairwise.cons (fun c hc => ?_)
        (mergeKey_stable_fuel n ls (y :: rs)
          (by simp only [List.length_cons] at hn ⊢; omega)
          (List.Pairwise.of_cons hl) hr
          (fun a ha b hb => hcross a (List.mem_cons_of_mem x ha) b hb))
      have hc' : c ∈ ls ++ y :: rs :=
        (mergeKey_perm Prod.fst ls (y :: rs)).mem_iff.mp hc
      rcases List.mem_append.mp hc' with h | h
      · exact List.rel_of_pairwise_cons hl h
      · have hfst : x.1 ≤ c.1 := by
          rcases List.mem_cons.mp h with h' | h'
          · exact h' ▸ hxy
          · exact le_trans hxy
              (lexRel_fst_le (List.rel_of_pairwise_cons hr h'))
        have htag : x.2 < c.2 :=
          hcross x (List.mem_cons_self x ls) c h
        rcases lt_or_eq_of_le hfst with h' | h'
        · exact Or.inl h'
        · exact Or.inr ⟨h', htag⟩
    · rw [show mergeKey Prod.fst (x :: ls) (y :: rs) =
        y :: mergeKey Prod.fst (x :: ls) rs from by
          simp only [mergeKey]; rw [if_neg hxy]]
      have hyx : y.1 < x.1 := lt_of_not_le hxy
      refine List.Pairwise.cons (fun c hc => ?_)
        (mergeKey_stable_fuel n (x :: ls) rs
          (by simp only [List.length_cons] at hn ⊢; omega)
          hl (List.Pairwise.of_cons hr)
          (fun a ha b hb => hcross a ha b (List.mem_cons_of_mem y hb)))
      have hc' : c ∈ (x :: ls) ++ rs :=
        (mergeKey_perm Prod.fst (x :: ls) rs).mem_iff.mp hc
      rcases List.mem_append.mp hc' with h | h
      · refine Or.inl (lt_of_lt_of_le hyx ?_)
        rcases List.mem_cons.mp h with h' | h'
        · exact h' ▸ le_rfl
        · exact lexRel_fst_le (List.rel_of_pairwise_cons hl h')
      · exact List.rel_of_pairwise_cons hr h

theorem msortKey_stable_fuel : ∀ (n : Nat) (t : List (Int × Nat)),
    t.length ≤ n → t.Pairwise (fun a b => a.2 < b.2) →
    (msortKey Prod.fst t).Pairwise lexRel
  | 0, t => fun hn _ => by
    have : t = [] := List.eq_nil_of_length_eq_zero (by omega)
    subst this
    simp [msortKey]
  | n + 1, t => fun hn ht => by
    by_cases h : t.length ≤ 1
    · rw [msortKey, if_pos h]
      match t, h with
      | [], _ => exact List.Pairwise.nil
      | [p], _ => exact List.pairwise_singleton _ p
    · rw [msortKey, if_neg h]
      have hsplit := List.pairwise_append.mp
        (by rw [List.take_append_drop (t.length / 2) t]; exact ht :
          (t.take (t.length / 2) ++ t.drop (t.length / 2)).Pairwise
            (fun a b => a.2 < b.2))
      refine mergeKey_stable_fuel
        ((msortKey Prod.fst (t.take (t.length / 2))).length +
          (msortKey Prod.fst (t.drop (t.length / 2))).length) _ _ le_rfl
        (msortKey_stable_fuel n (t.take (t.length / 2))
          (by rw [List.length_take]; omega)
          ((ht.sublist (List.take_sublist _ _))))
        (msortKey_stable_fuel n (t.drop (t.length / 2))
          (by rw [List.length_drop]; omega)
          ((ht.sublist (List.drop_sublist _ _))))
        (fun a ha b hb => hsplit.2.2 a ?_ b ?_)
      · exact (msortKey_perm Prod.fst _).mem_iff.mp ha
      · exact (msortKey_perm Prod.fst _).mem_iff.mp hb

theorem msortTag_map_fst (seq : List Int) :
    (msortKey Prod.fst (tag seq 0)).map Prod.fst = msortKey id seq := by
  rw [msortKey_map_fuel Prod.fst Prod.fst id (fun _ => rfl)
    (tag seq 0).length (tag seq 0) le_rfl, tag_map_fst]

theorem msortTag_stable (seq : List Int) :
    (msortKey Prod.fst (tag seq 0)).Pairwise lexRel :=
  msortKey_stable_fuel (tag seq 0).length (tag seq 0) le_rfl
    (tag_tags_lt seq 0)

/-- C6: the merge tie-break is stable-left — whenever
`left[i] <= right[j]` the next placed element is taken from the left
sub-list — and consequently the final snapshot of every trace equals the
value projection of the provenance-tagged reference stable merge sort
(`msortKey Prod.fst` over `tag`), whose (value, original index) pairs are
strictly lexicographically sorted; for inputs with duplicates this pins
the relative order of equal-valued elements to the stable reference. -/
theorem stable_left_tie_break :
    (∀ (x y : Int) (ls rs : List Int) (startIdx level : Nat)
      (s : VizState), x ≤ y →
      startIdx + (x :: ls).length + (y :: rs).length ≤ s.array.length →
      (merge_with_steps (x :: ls) (y :: rs) startIdx level s).1 =
        x :: mergeKey id ls (y :: rs)) ∧
    (∀ seq : List Int,
      (msortKey Prod.fst (tag seq 0)).map Prod.fst = msortKey id seq ∧
      (msortKey Prod.fst (tag seq 0)).Pairwise lexRel) ∧
    (∀ seq : List Int, 2 ≤ seq.length →
      ∃ st, (record seq).getLast? = some st ∧
        st.core.array = (msortKey Prod.fst (tag seq 0)).map Prod.fst) := by
  refine ⟨?_, fun seq => ⟨msortTag_map_fst seq, msortTag_stable seq⟩, ?_⟩
  · intro x y ls rs startIdx level s hxy hb
    obtain ⟨s', p1, _, _, _⟩ := mergePipeline_spec startIdx level
      ((x :: ls).length + (y :: rs).length) (x :: ls) (y :: rs) []
      startIdx s le_rfl (by simp) (by omega)
    rw [merge_with_steps_eq, p1]
    have hmk : mergeKey id (x :: ls) (y :: rs) =
        x :: mergeKey id ls (y :: rs) := by
      simp only [mergeKey, id_eq]
      rw [if_pos hxy]
    rw [hmk]
    simp
  · intro seq hlen
    obtain ⟨st0, rest, hrec, _⟩ :=
      (runRecorder_props seq).2.2.2 (by omega)
    obtain ⟨last, hlast⟩ : ∃ st, (record seq).getLast? = some st := by
      cases hgl : (record seq).getLast? with
      | none =>
        rw [List.getLast?_eq_none_iff] at hgl
        rw [hrec] at hgl
        cases hgl
      | some st => exact ⟨st, rfl⟩
    refine ⟨last, hlast, ?_⟩
    have hsnap : last.core.array = msortKey id seq := by
      have := record_snapAfter seq
      rw [snapAfter, hlast] at this
      exact this
    rw [hsnap, msortTag_map_fst]

/-- Witness for C6: a genuine tie (`x = y = 2`) is taken from the left,
and the final snapshot of `record [3, 3]` equals the projected tagged
reference sort. -/
theorem stable_left_tie_break_witness :
    (merge_with_steps [2] [2] 0 0 { array := [0, 0], steps := [] }).1 =
      2 :: mergeKey id [] [2] ∧
    ∃ st, (record [3, 3]).getLast? = some st ∧
      st.core.array = (msortKey Prod.fst (tag [3, 3] 0)).map Prod.fst :=
  ⟨stable_left_tie_break.1 2 2 [] [] 0 0
      { array := [0, 0], steps := [] } (by decide) (by decide),
    stable_left_tie_break.2.2 [3, 3] (by decide)⟩

/-- Witness for C10: two runs with different environment seeds on the same
input agree. -/
theorem record_deterministic_witness :
    recordRun 1 [5, 3, 8, 1] = recordRun 42 [5, 3, 8, 1] :=
  (record_deterministic 1 42 [5, 3, 8, 1]).1
